import Mathlib

/-!
# Verification of the repository discovery and aggregation engine

Shallow embedding of `getProjectinfo` (the `fetchRepositoryInfo` module):
the recursive git-root search (`findGitRootInSubdirectories`), the
directory-topology builder (`getDirectoryHierarchy`), the config URL
extractor (`extractUrlsFromConfig`, the regex `url\s*=\s*(.+)` run
globally), and the orchestrating `fetchRepositoryInfo`.

Modelling conventions:
* Filesystem paths are lists of path segments (`List String`); the Node
  call `join(a, b)` for a single entry name `b` is `a ++ [b]`, and
  `relative(base, p)` for `p` extending `base` is `p.drop base.length`.
  The empty segment list plays the role of the `"."` self sentinel that
  the source produces with `relative(basePath, dirPath) || "."`.
* A directory listing (`readdir` with file types) is a `List FSEntry`;
  an entry is a file name or a directory name together with the listing
  of that directory, in filesystem-listing order.
* Strings scanned by the URL extractor are `List Char`; the character
  classes `\s` and the line terminators of the JavaScript regex engine
  are modelled on their ASCII part, which covers the config texts the
  source reads.
* The orchestrator performs awaited backend and filesystem calls; each
  call is modelled by its outcome (`Except`), and the user-visible
  error-reporting side channel (`showErrorMessage`) by a list of
  reported messages returned with the snapshot.
-/

/-- One entry of a directory listing: a plain file, or a subdirectory
together with its own listing. -/
inductive FSEntry : Type where
  | file : String → FSEntry
  | dir : String → List FSEntry → FSEntry

/-- `findGitRootInSubdirectories` from the source: walk the listing in
order; a directory child named `.git` makes the current path the root;
any other directory child is searched recursively first, short-circuiting
on the first non-null result. -/
def findGitRootInSubdirectories (currentPath : List String) :
    List FSEntry → Option (List String)
  | [] => none
  | FSEntry.file _ :: rest => findGitRootInSubdirectories currentPath rest
  | FSEntry.dir name children :: rest =>
      if name = ".git" then some currentPath
      else
        match findGitRootInSubdirectories (currentPath ++ [name]) children with
        | some gitRoot => some gitRoot
        | none => findGitRootInSubdirectories currentPath rest

/-- First directory entry with the given name, and its listing (the
resolution step of one path segment). -/
def lookupDir : List FSEntry → String → Option (List FSEntry)
  | [], _ => none
  | FSEntry.file _ :: rest, n => lookupDir rest n
  | FSEntry.dir m children :: rest, n =>
      if m = n then some children else lookupDir rest n

/-- Resolve a relative segment path inside a listing, returning the
listing of the directory it denotes (the model of `readdir` at that
path). -/
def childrenAt (items : List FSEntry) : List String → Option (List FSEntry)
  | [] => some items
  | n :: ns =>
      match lookupDir items n with
      | some children => childrenAt children ns
      | none => none

/-- `locateRoot` of the spec: read the starting directory and run the
recursive search there.  `none` also covers a starting path that does not
resolve to a directory. -/
def locateRoot (fs : List FSEntry) (p : List String) : Option (List String) :=
  match childrenAt fs p with
  | some items => findGitRootInSubdirectories p items
  | none => none

/-- Number of directories named `.git` anywhere in a listing's subtree. -/
def gitCount : List FSEntry → Nat
  | [] => 0
  | FSEntry.file _ :: rest => gitCount rest
  | FSEntry.dir name children :: rest =>
      (if name = ".git" then 1 else 0) + gitCount children + gitCount rest

/-- The listing has a direct subdirectory child named `.git`. -/
def hasGitChild : List FSEntry → Bool
  | [] => false
  | FSEntry.file _ :: rest => hasGitChild rest
  | FSEntry.dir n _ :: rest => n == ".git" || hasGitChild rest

example : findGitRootInSubdirectories ["p"]
    [FSEntry.file "a", FSEntry.dir "x" [FSEntry.dir ".git" []]] = some ["p", "x"] := by
  simp [findGitRootInSubdirectories]

example : gitCount [FSEntry.dir "x" [FSEntry.dir ".git" []]] = 1 := by
  simp [gitCount]

/-- A chain of directory names that can be followed from the listing,
each step entering some directory entry of the current listing. -/
def chainOk : List FSEntry → List String → Bool
  | _, [] => true
  | [], _ :: _ => false
  | FSEntry.file _ :: rest, n :: ns => chainOk rest (n :: ns)
  | FSEntry.dir m cs :: rest, n :: ns =>
      (m == n && chainOk cs ns) || chainOk rest (n :: ns)

/-- Induction principle for directory listings that also provides the
inductive hypothesis for the listing of each subdirectory entry. -/
theorem fsListRec {motive : List FSEntry → Prop}
    (nil : motive [])
    (file : ∀ (f : String) (rest : List FSEntry),
      motive rest → motive (FSEntry.file f :: rest))
    (dir : ∀ (n : String) (cs rest : List FSEntry),
      motive cs → motive rest → motive (FSEntry.dir n cs :: rest)) :
    ∀ items, motive items
  | [] => nil
  | FSEntry.file f :: rest => file f rest (fsListRec nil file dir rest)
  | FSEntry.dir n cs :: rest =>
      dir n cs rest (fsListRec nil file dir cs) (fsListRec nil file dir rest)

/-- A subtree containing no directory named `.git` yields no root. -/
theorem findGitRoot_eq_none_of_gitCount_zero :
    ∀ (items : List FSEntry) (p : List String), gitCount items = 0 →
      findGitRootInSubdirectories p items = none := by
  intro items
  induction items using fsListRec with
  | nil => intro p _; simp [findGitRootInSubdirectories]
  | file f rest ih =>
      intro p h
      simp only [gitCount] at h
      simp [findGitRootInSubdirectories, ih p h]
  | dir n cs rest ihc ihr =>
      intro p h
      simp only [gitCount] at h
      by_cases hn : n = ".git"
      · rw [if_pos hn] at h; omega
      · rw [if_neg hn] at h
        have hcs : gitCount cs = 0 := by omega
        have hrest : gitCount rest = 0 := by omega
        simp [findGitRootInSubdirectories, hn, ihc (p ++ [n]) hcs, ihr p hrest]

/-- Entering a listed subdirectory cannot increase the marker count. -/
theorem gitCount_lookupDir :
    ∀ (items : List FSEntry) (n : String) (cs : List FSEntry),
      lookupDir items n = some cs → gitCount cs ≤ gitCount items := by
  intro items
  induction items using fsListRec with
  | nil => intro n cs h; simp [lookupDir] at h
  | file f rest ih =>
      intro n cs h
      simp only [lookupDir] at h
      simp only [gitCount]
      exact ih n cs h
  | dir m cs0 rest ihc ihr =>
      intro n cs h
      simp only [lookupDir] at h
      simp only [gitCount]
      by_cases hm : m = n
      · rw [if_pos hm] at h
        obtain rfl : cs0 = cs := by simpa using h
        omega
      · rw [if_neg hm] at h
        have := ihr n cs h
        omega

/-- A direct `.git` child forces a positive marker count. -/
theorem gitCount_pos_of_hasGitChild :
    ∀ items : List FSEntry, hasGitChild items = true → 1 ≤ gitCount items := by
  intro items
  induction items using fsListRec with
  | nil => intro h; simp [hasGitChild] at h
  | file f rest ih =>
      intro h
      simp only [hasGitChild] at h
      simp only [gitCount]
      exact ih h
  | dir n cs rest ihc ihr =>
      intro h
      simp only [hasGitChild] at h
      simp only [gitCount]
      by_cases hn : n = ".git"
      · rw [if_pos hn]; omega
      · simp [hn] at h
        have := ihr h
        omega

/-- A resolvable path whose target has a direct `.git` child forces a
positive marker count for the starting listing. -/
theorem gitCount_pos_of_childrenAt :
    ∀ (s : List String) (items itemsR : List FSEntry),
      childrenAt items s = some itemsR → hasGitChild itemsR = true →
      1 ≤ gitCount items := by
  intro s
  induction s with
  | nil =>
      intro items itemsR h hg
      simp only [childrenAt] at h
      obtain rfl : items = itemsR := by simpa using h
      exact gitCount_pos_of_hasGitChild items hg
  | cons n ns ih =>
      intro items itemsR h hg
      simp only [childrenAt] at h
      cases hl : lookupDir items n with
      | none => rw [hl] at h; simp at h
      | some cs =>
          rw [hl] at h
          exact le_trans (ih cs itemsR h hg) (gitCount_lookupDir items n cs hl)

/-- If the subtree holds exactly one marker directory and the relative
segment path `s` leads to the directory that has the marker as a direct
child, the search returns the start path extended by `s`. -/
theorem findGitRoot_unique_aux (items : List FSEntry) :
    ∀ (p s : List String) (itemsR : List FSEntry),
      gitCount items = 1 → childrenAt items s = some itemsR →
      hasGitChild itemsR = true →
      findGitRootInSubdirectories p items = some (p ++ s) := by
  match items with
  | [] =>
      intro p s itemsR h1 h2 h3
      simp [gitCount] at h1
  | FSEntry.file f :: rest =>
      intro p s itemsR h1 h2 h3
      simp only [gitCount] at h1
      have hstep : findGitRootInSubdirectories p (FSEntry.file f :: rest) =
          findGitRootInSubdirectories p rest := by
        simp [findGitRootInSubdirectories]
      rw [hstep]
      cases s with
      | nil =>
          simp only [childrenAt] at h2
          obtain rfl : FSEntry.file f :: rest = itemsR := by simpa using h2
          simp only [hasGitChild] at h3
          exact findGitRoot_unique_aux rest p [] rest h1 rfl h3
      | cons n ns =>
          simp only [childrenAt, lookupDir] at h2
          exact findGitRoot_unique_aux rest p (n :: ns) itemsR h1
            (by simp only [childrenAt]; exact h2) h3
  | FSEntry.dir n cs :: rest =>
      intro p s itemsR h1 h2 h3
      simp only [gitCount] at h1
      by_cases hn : n = ".git"
      · rw [if_pos hn] at h1
        have hcs : gitCount cs = 0 := by omega
        have hrest : gitCount rest = 0 := by omega
        cases s with
        | nil => simp [findGitRootInSubdirectories, hn]
        | cons m ms =>
            exfalso
            simp only [childrenAt, lookupDir] at h2
            by_cases hm : n = m
            · rw [if_pos hm] at h2
              have := gitCount_pos_of_childrenAt ms cs itemsR h2 h3
              omega
            · rw [if_neg hm] at h2
              cases hl : lookupDir rest m with
              | none => rw [hl] at h2; simp at h2
              | some cs2 =>
                  rw [hl] at h2
                  have h4 := gitCount_pos_of_childrenAt ms cs2 itemsR h2 h3
                  have h5 := gitCount_lookupDir rest m cs2 hl
                  omega
      · rw [if_neg hn] at h1
        by_cases hcs : gitCount cs = 0
        · have hrest : gitCount rest = 1 := by omega
          have hnone := findGitRoot_eq_none_of_gitCount_zero cs (p ++ [n]) hcs
          cases s with
          | nil =>
              simp only [childrenAt] at h2
              obtain rfl : FSEntry.dir n cs :: rest = itemsR := by simpa using h2
              simp only [hasGitChild] at h3
              simp [hn] at h3
              have hrec := findGitRoot_unique_aux rest p [] rest hrest rfl h3
              simp [findGitRootInSubdirectories, hn, hnone, hrec]
          | cons m ms =>
              simp only [childrenAt, lookupDir] at h2
              by_cases hm : n = m
              · exfalso
                rw [if_pos hm] at h2
                have := gitCount_pos_of_childrenAt ms cs itemsR h2 h3
                omega
              · rw [if_neg hm] at h2
                cases hl : lookupDir rest m with
                | none => rw [hl] at h2; simp at h2
                | some cs2 =>
                    rw [hl] at h2
                    have hrec := findGitRoot_unique_aux rest p (m :: ms) itemsR hrest
                      (by simp only [childrenAt]; rw [hl]; exact h2) h3
                    simp [findGitRootInSubdirectories, hn, hnone, hrec]
        · have hcs1 : gitCount cs = 1 := by
            have := Nat.one_le_iff_ne_zero.mpr hcs
            omega
          have hrest : gitCount rest = 0 := by omega
          cases s with
          | nil =>
              exfalso
              simp only [childrenAt] at h2
              obtain rfl : FSEntry.dir n cs :: rest = itemsR := by simpa using h2
              simp only [hasGitChild] at h3
              simp [hn] at h3
              have := gitCount_pos_of_hasGitChild rest h3
              omega
          | cons m ms =>
              simp only [childrenAt, lookupDir] at h2
              by_cases hm : n = m
              · rw [if_pos hm] at h2
                have hrec := findGitRoot_unique_aux cs (p ++ [n]) ms itemsR hcs1 h2 h3
                subst hm
                simp [findGitRootInSubdirectories, hn, hrec]
              · exfalso
                rw [if_neg hm] at h2
                cases hl : lookupDir rest m with
                | none => rw [hl] at h2; simp at h2
                | some cs2 =>
                    rw [hl] at h2
                    have h4 := gitCount_pos_of_childrenAt ms cs2 itemsR h2 h3
                    have h5 := gitCount_lookupDir rest m cs2 hl
                    omega
termination_by sizeOf items

/-- Any found root is reached by following listed subdirectory names
down from the start path. -/
theorem findGitRoot_descendant_aux (items : List FSEntry) :
    ∀ (p r : List String),
      findGitRootInSubdirectories p items = some r →
      ∃ s, chainOk items s = true ∧ r = p ++ s := by
  match items with
  | [] =>
      intro p r h
      simp [findGitRootInSubdirectories] at h
  | FSEntry.file f :: rest =>
      intro p r h
      simp only [findGitRootInSubdirectories] at h
      obtain ⟨s, hc, hr⟩ := findGitRoot_descendant_aux rest p r h
      refine ⟨s, ?_, hr⟩
      cases s with
      | nil => simp [chainOk]
      | cons m ms => simp only [chainOk]; exact hc
  | FSEntry.dir n cs :: rest =>
      intro p r h
      simp only [findGitRootInSubdirectories] at h
      by_cases hn : n = ".git"
      · rw [if_pos hn] at h
        obtain rfl : p = r := by simpa using h
        exact ⟨[], by simp [chainOk], by simp⟩
      · rw [if_neg hn] at h
        cases hrec : findGitRootInSubdirectories (p ++ [n]) cs with
        | some r1 =>
            rw [hrec] at h
            simp only [] at h
            obtain rfl : r1 = r := by simpa using h
            obtain ⟨s, hc, hr⟩ := findGitRoot_descendant_aux cs (p ++ [n]) r1 hrec
            refine ⟨n :: s, ?_, ?_⟩
            · simp only [chainOk]
              simp [hc]
            · rw [hr]
              simp
        | none =>
            rw [hrec] at h
            simp only [] at h
            obtain ⟨s, hc, hr⟩ := findGitRoot_descendant_aux rest p r h
            refine ⟨s, ?_, hr⟩
            cases s with
            | nil => simp [chainOk]
            | cons m ms =>
                simp only [chainOk]
                simp [hc]
termination_by sizeOf items

/-- The listing of the demonstration directory `/repo`: its marker
directory `.git`, and `src/app` with no marker anywhere below. -/
def demoRepoItems : List FSEntry :=
  [FSEntry.dir ".git" [FSEntry.file "HEAD"],
   FSEntry.dir "src" [FSEntry.dir "app" [FSEntry.file "main.ts"]]]

/-- A demonstration filesystem whose only marker directory is
`/repo/.git`. -/
def demoFs : List FSEntry := [FSEntry.dir "repo" demoRepoItems]

/-- C1 counterexample: with `/repo/.git` the only marker directory and
`/repo/src/app` holding none in its subtree, the claim demands
`locateRoot("/repo/src/app") = /repo`; the code searches downward only
and returns NotFound there (while from `/repo` itself it does return
`/repo`). -/
theorem locateRoot_ancestor_counterexample :
    locateRoot demoFs ["repo"] = some ["repo"] ∧
    locateRoot demoFs ["repo", "src", "app"] = none ∧
    locateRoot demoFs ["repo", "src", "app"] ≠ some ["repo"] := by
  refine ⟨?_, ?_, ?_⟩
  · simp [locateRoot, childrenAt, lookupDir, demoFs, demoRepoItems,
      findGitRootInSubdirectories]
  · simp [locateRoot, childrenAt, lookupDir, demoFs, demoRepoItems,
      findGitRootInSubdirectories]
  · simp [locateRoot, childrenAt, lookupDir, demoFs, demoRepoItems,
      findGitRootInSubdirectories]

/-- C1 (amended): for a starting directory P whose subtree (not its
ancestor chain: the source searches downward only) contains exactly one
marker directory, locateRoot(P) returns the path of the directory that
has the marker as a direct child, namely P extended by the relative
segments leading to that directory. -/
theorem locateRoot_unique_marker (fs : List FSEntry) (p s : List String)
    (items itemsR : List FSEntry)
    (hp : childrenAt fs p = some items)
    (hcount : gitCount items = 1)
    (hs : childrenAt items s = some itemsR)
    (hchild : hasGitChild itemsR = true) :
    locateRoot fs p = some (p ++ s) := by
  simp only [locateRoot, hp]
  exact findGitRoot_unique_aux items p s itemsR hcount hs hchild

/-- C1 witness: the amended statement applied to the demonstration
filesystem at `/repo`, whose subtree has exactly one marker. -/
theorem locateRoot_unique_marker_witness :
    gitCount demoRepoItems = 1 ∧ locateRoot demoFs ["repo"] = some ["repo"] :=
  ⟨by simp [demoRepoItems, gitCount], by
    have h := locateRoot_unique_marker demoFs ["repo"] [] demoRepoItems demoRepoItems
      rfl (by simp [demoRepoItems, gitCount]) rfl rfl
    simpa using h⟩

/-- If every entry before the `.git` child covers a marker-free subtree,
the search returns the current path when it reaches the `.git` child. -/
theorem findGitRoot_direct_marker_aux :
    ∀ (pre : List FSEntry) (p : List String) (g post : List FSEntry),
      gitCount pre = 0 →
      findGitRootInSubdirectories p (pre ++ FSEntry.dir ".git" g :: post) = some p := by
  intro pre
  induction pre using fsListRec with
  | nil => intro p g post _; simp [findGitRootInSubdirectories]
  | file f rest ih =>
      intro p g post h
      simp only [gitCount] at h
      simp only [List.cons_append, findGitRootInSubdirectories]
      exact ih p g post h
  | dir n cs rest ihc ihr =>
      intro p g post h
      simp only [gitCount] at h
      by_cases hn : n = ".git"
      · rw [if_pos hn] at h; omega
      · rw [if_neg hn] at h
        have hcs : gitCount cs = 0 := by omega
        have hrest : gitCount rest = 0 := by omega
        simp only [List.cons_append]
        simp [findGitRootInSubdirectories, hn,
          findGitRoot_eq_none_of_gitCount_zero cs (p ++ [n]) hcs, ihr p g post hrest]

/-- C2 (amended): a starting directory with a direct `.git` child is
returned itself provided no earlier-listed sibling subdirectory holds a
marker in its subtree; when an earlier-listed sibling does hold one, the
nested root is returned instead (see the counterexample). -/
theorem findGitRoot_direct_marker (p : List String) (pre g post : List FSEntry)
    (h : gitCount pre = 0) :
    findGitRootInSubdirectories p (pre ++ FSEntry.dir ".git" g :: post) = some p :=
  findGitRoot_direct_marker_aux pre p g post h

/-- C2 counterexample: the start has a direct `.git` child, but the
earlier-listed sibling `a` holds a nested marker, so the search returns
`a` and not the starting directory itself. -/
theorem findGitRoot_direct_marker_counterexample :
    findGitRootInSubdirectories []
      [FSEntry.dir "a" [FSEntry.dir ".git" []], FSEntry.dir ".git" []] = some ["a"] ∧
    some ["a"] ≠ some ([] : List String) := by
  constructor
  · simp [findGitRootInSubdirectories]
  · simp

/-- C2 witness: the amended statement at a concrete listing whose entries
before `.git` are a file and a marker-free directory. -/
theorem findGitRoot_direct_marker_witness :
    gitCount [FSEntry.file "readme", FSEntry.dir "src" []] = 0 ∧
    findGitRootInSubdirectories ["w"]
      ([FSEntry.file "readme", FSEntry.dir "src" []] ++
        FSEntry.dir ".git" [] :: [FSEntry.dir "docs" []]) = some ["w"] :=
  ⟨by simp [gitCount],
   findGitRoot_direct_marker ["w"] [FSEntry.file "readme", FSEntry.dir "src" []]
     [] [FSEntry.dir "docs" []] (by simp [gitCount])⟩

/-- C10: whenever the search returns a path, that path is the starting
path extended by a chain of listed subdirectory names (possibly empty);
it is never an ancestor of the starting path. -/
theorem findGitRoot_returns_descendant (p r : List String) (items : List FSEntry)
    (h : findGitRootInSubdirectories p items = some r) :
    ∃ s, chainOk items s = true ∧ r = p ++ s :=
  findGitRoot_descendant_aux items p r h

/-- C10 witness: the property applied at a concrete listing where the
root is found one level below the start. -/
theorem findGitRoot_returns_descendant_witness :
    ∃ s, chainOk [FSEntry.dir "x" [FSEntry.dir ".git" []]] s = true ∧
      ["base", "x"] = ["base"] ++ s :=
  findGitRoot_returns_descendant ["base"] ["base", "x"]
    [FSEntry.dir "x" [FSEntry.dir ".git" []]]
    (by simp [findGitRootInSubdirectories])

/-- `DirectoryInfo` from the source: relative name (segment form, with
`[]` playing the `"."` self sentinel), absolute path, and the ordered
subdirectory nodes. -/
inductive DirectoryInfo : Type where
  | mk : List String → List String → List DirectoryInfo → DirectoryInfo

/-- The relative-path label of a topology node. -/
def DirectoryInfo.name : DirectoryInfo → List String
  | DirectoryInfo.mk n _ _ => n

/-- The absolute path of a topology node. -/
def DirectoryInfo.path : DirectoryInfo → List String
  | DirectoryInfo.mk _ p _ => p

/-- The subdirectory nodes of a topology node. -/
def DirectoryInfo.subdirectories : DirectoryInfo → List DirectoryInfo
  | DirectoryInfo.mk _ _ s => s

mutual

/-- `getDirectoryHierarchy` from the source: one node per directory, the
name being `relative(basePath, dirPath)` and the children built from the
directory entries in listing order; files are skipped. -/
def getDirectoryHierarchy (dirPath basePath : List String)
    (items : List FSEntry) : DirectoryInfo :=
  DirectoryInfo.mk (dirPath.drop basePath.length) dirPath
    (subdirsOf dirPath basePath items)

/-- The loop body of `getDirectoryHierarchy`: recurse into each
directory entry, skipping every other entry type. -/
def subdirsOf (dirPath basePath : List String) :
    List FSEntry → List DirectoryInfo
  | [] => []
  | FSEntry.file _ :: rest => subdirsOf dirPath basePath rest
  | FSEntry.dir n cs :: rest =>
      getDirectoryHierarchy (dirPath ++ [n]) basePath cs ::
        subdirsOf dirPath basePath rest

end

mutual

/-- All nodes of a topology tree, the node itself first. -/
def nodesOf : DirectoryInfo → List DirectoryInfo
  | DirectoryInfo.mk n p subs => DirectoryInfo.mk n p subs :: nodesOfList subs

/-- All nodes of a forest of topology trees. -/
def nodesOfList : List DirectoryInfo → List DirectoryInfo
  | [] => []
  | d :: ds => nodesOf d ++ nodesOfList ds

end

/-- Number of directories in the subtrees of a listing (the listing
owner itself not counted). -/
def dirCount : List FSEntry → Nat
  | [] => 0
  | FSEntry.file _ :: rest => dirCount rest
  | FSEntry.dir _ cs :: rest => 1 + dirCount cs + dirCount rest

/-- Node count and labels of the forest built from a listing, for any
directory `base ++ extra` below the base. -/
theorem subdirsOf_nodes :
    ∀ (items : List FSEntry) (base extra : List String),
      (nodesOfList (subdirsOf (base ++ extra) base items)).length = dirCount items ∧
      ∀ d ∈ nodesOfList (subdirsOf (base ++ extra) base items),
        base ++ d.name = d.path := by
  intro items
  induction items using fsListRec with
  | nil => intro base extra; simp [subdirsOf, nodesOfList, dirCount]
  | file f rest ih =>
      intro base extra
      simp only [subdirsOf, dirCount]
      exact ih base extra
  | dir n cs rest ihc ihr =>
      intro base extra
      obtain ⟨ihcLen, ihcMem⟩ := ihc base (extra ++ [n])
      obtain ⟨ihrLen, ihrMem⟩ := ihr base extra
      have hD : (base ++ extra) ++ [n] = base ++ (extra ++ [n]) := by
        simp [List.append_assoc]
      constructor
      · simp only [subdirsOf, nodesOfList, getDirectoryHierarchy, nodesOf,
          List.length_append, List.length_cons, dirCount, hD, ihcLen, ihrLen]
        omega
      · intro d hd
        simp only [subdirsOf, nodesOfList, getDirectoryHierarchy, nodesOf, hD,
          List.mem_append, List.mem_cons] at hd
        rcases hd with (rfl | hd1) | hd2
        · simp only [DirectoryInfo.name, DirectoryInfo.path]
          rw [List.drop_left]
        · exact ihcMem d hd1
        · exact ihrMem d hd2

/-- C7: the topology built at a root labels the root node with the self
sentinel, has one node per directory reachable from the root (the root
itself included, files and other entry types never recorded, the marker
directory counted like any other directory), and labels every node with
a relative path that, appended to the root, yields the absolute path of
that node. -/
theorem getDirectoryHierarchy_topology (root : List String) (items : List FSEntry) :
    (getDirectoryHierarchy root root items).name = [] ∧
    (nodesOf (getDirectoryHierarchy root root items)).length = 1 + dirCount items ∧
    (nodesOf (getDirectoryHierarchy root root items)).Forall
      (fun d => root ++ d.name = d.path) := by
  obtain ⟨hlen, hmem⟩ := subdirsOf_nodes items root []
  rw [List.append_nil] at hlen hmem
  refine ⟨?_, ?_, ?_⟩
  · simp [getDirectoryHierarchy, DirectoryInfo.name, List.drop_length]
  · simp only [getDirectoryHierarchy, nodesOf, List.length_cons, hlen]
    omega
  · rw [List.forall_iff_forall_mem]
    intro d hd
    simp only [getDirectoryHierarchy, nodesOf, List.mem_cons] at hd
    rcases hd with rfl | hd
    · simp [DirectoryInfo.name, DirectoryInfo.path, List.drop_length]
    · exact hmem d hd

/-- The ASCII part of the regex character class `\s`. -/
def isJsSpace (c : Char) : Bool :=
  c == ' ' || c == '\t' || c == '\n' || c == '\r' || c == '\x0b' || c == '\x0c'

/-- The ASCII line terminators; the regex dot does not match them. -/
def isLineTerm (c : Char) : Bool := c == '\n' || c == '\r'

/-- `String.prototype.trim`: strip whitespace from both ends. -/
def jsTrim (l : List Char) : List Char :=
  ((l.dropWhile isJsSpace).reverse.dropWhile isJsSpace).reverse

/-- Backtracking step of `\s*(.+)` when only whitespace remains up to
the end of the input: the greedy star gives characters back until the
dot can match once, so the capture is the last whitespace character that
is not a line terminator, and the trailing terminators remain. -/
def backtrackCap (w : List Char) : Option (List Char × List Char) :=
  match w.reverse.dropWhile isLineTerm with
  | [] => none
  | c :: _ => some ([c], (w.reverse.takeWhile isLineTerm).reverse)

/-- Match of `\s*(.+)` directly after the `=`: skip whitespace greedily,
then capture the longest run of non-terminator characters; when nothing
but whitespace remains, backtrack into it. -/
def afterEq (t2 : List Char) : Option (List Char × List Char) :=
  match t2.dropWhile isJsSpace with
  | [] => backtrackCap t2
  | c :: cs =>
      let cap := (c :: cs).takeWhile fun x => ! isLineTerm x
      some (cap, (c :: cs).drop cap.length)

/-- After the key and its trailing whitespace, the match demands a
literal equals sign and hands the rest to `afterEq`. -/
def eqStep : List Char → Option (List Char × List Char)
  | c4 :: t2 => if c4 = '=' then afterEq t2 else none
  | [] => none

/-- Leftmost match of the regex `url\s*=\s*(.+)` anchored at this exact
position: the capture and the input remaining after the match. -/
def tryMatch (l : List Char) : Option (List Char × List Char) :=
  match l with
  | c1 :: c2 :: c3 :: t =>
      if c1 = 'u' ∧ c2 = 'r' ∧ c3 = 'l' then eqStep (t.dropWhile isJsSpace)
      else none
  | _ => none

/-- The whitespace-run length never grows under `takeWhile`. -/
theorem length_takeWhile_le (p : Char → Bool) :
    ∀ l : List Char, (l.takeWhile p).length ≤ l.length := by
  intro l
  induction l with
  | nil => simp
  | cons c cs ih =>
      by_cases h : p c = true
      · simp [List.takeWhile_cons, h]; omega
      · simp [List.takeWhile_cons, h]

/-- The input never grows under `dropWhile`. -/
theorem length_dropWhile_le (p : Char → Bool) :
    ∀ l : List Char, (l.dropWhile p).length ≤ l.length := by
  intro l
  induction l with
  | nil => simp
  | cons c cs ih =>
      by_cases h : p c = true
      · simp only [List.dropWhile_cons, h, if_true, List.length_cons]
        omega
      · simp [List.dropWhile_cons, h]

/-- The remainder returned by `afterEq` is no longer than its input. -/
theorem afterEq_rest_le (t2 cap rest : List Char)
    (h : afterEq t2 = some (cap, rest)) : rest.length ≤ t2.length := by
  unfold afterEq at h
  cases hd : t2.dropWhile isJsSpace with
  | nil =>
      rw [hd] at h
      unfold backtrackCap at h
      cases hb : t2.reverse.dropWhile isLineTerm with
      | nil => rw [hb] at h; simp at h
      | cons c cs =>
          rw [hb] at h
          simp only [Option.some.injEq, Prod.mk.injEq] at h
          obtain ⟨-, rfl⟩ := h
          calc ((t2.reverse.takeWhile isLineTerm).reverse).length
              = (t2.reverse.takeWhile isLineTerm).length := by simp
            _ ≤ t2.reverse.length := length_takeWhile_le _ _
            _ = t2.length := by simp
  | cons c cs =>
      rw [hd] at h
      simp only [Option.some.injEq, Prod.mk.injEq] at h
      obtain ⟨-, rfl⟩ := h
      have h1 : (c :: cs).length ≤ t2.length := by
        rw [← hd]; exact length_dropWhile_le _ _
      have h2 := List.length_drop
        ((c :: cs).takeWhile (fun x => ! isLineTerm x)).length (c :: cs)
      omega

/-- On a listing shorter than the key, the match fails. -/
theorem tryMatch_nil : tryMatch [] = none := rfl

/-- Unfolding equation of `tryMatch` on one character. -/
theorem tryMatch_one (c1 : Char) : tryMatch [c1] = none := rfl

/-- Unfolding equation of `tryMatch` on two characters. -/
theorem tryMatch_two (c1 c2 : Char) : tryMatch [c1, c2] = none := rfl

/-- Unfolding equation of `tryMatch` on three characters or more. -/
theorem tryMatch_cons3 (c1 c2 c3 : Char) (t : List Char) :
    tryMatch (c1 :: c2 :: c3 :: t) =
      if c1 = 'u' ∧ c2 = 'r' ∧ c3 = 'l' then eqStep (t.dropWhile isJsSpace)
      else none := rfl

/-- A successful match consumes at least the three key letters plus the
equals sign and one captured character. -/
theorem tryMatch_rest_lt (l cap rest : List Char)
    (h : tryMatch l = some (cap, rest)) : rest.length < l.length := by
  cases l with
  | nil => rw [tryMatch_nil] at h; simp at h
  | cons c1 l1 =>
  cases l1 with
  | nil => rw [tryMatch_one] at h; simp at h
  | cons c2 l2 =>
  cases l2 with
  | nil => rw [tryMatch_two] at h; simp at h
  | cons c3 t =>
      rw [tryMatch_cons3] at h
      by_cases hc : c1 = 'u' ∧ c2 = 'r' ∧ c3 = 'l'
      · rw [if_pos hc] at h
        cases hd : t.dropWhile isJsSpace with
        | nil => rw [hd] at h; simp [eqStep] at h
        | cons c4 t2 =>
            rw [hd] at h
            simp only [eqStep] at h
            by_cases h4 : c4 = '='
            · rw [if_pos h4] at h
              have h5 := afterEq_rest_le t2 cap rest h
              have h6 : (c4 :: t2).length ≤ t.length := by
                rw [← hd]; exact length_dropWhile_le _ _
              simp only [List.length_cons] at h6 ⊢
              omega
            · rw [if_neg h4] at h; simp at h
      · rw [if_neg hc] at h; simp at h

/-- The global `exec` loop of the regex: at each position try the
pattern; on a match, emit the trimmed capture and continue after the
match, otherwise advance one character.  The first argument only bounds
the recursion depth; it is set to the input length, which the loop
never exceeds. -/
def scanUrlsF : Nat → List Char → List (List Char)
  | _, [] => []
  | 0, _ :: _ => []
  | Nat.succ f, c :: cs =>
      match tryMatch (c :: cs) with
      | some (cap, rest) => jsTrim cap :: scanUrlsF f rest
      | none => scanUrlsF f cs

/-- `extractUrlsFromConfig` from the source: every capture of the global
regex `url\s*=\s*(.+)` over the text, trimmed, in match order. -/
def extractUrlsFromConfig (configContent : List Char) : List (List Char) :=
  scanUrlsF configContent.length configContent

/-- Any fuel at least the input length gives the same scan. -/
theorem scanUrlsF_fuel :
    ∀ (f g : Nat) (l : List Char), l.length ≤ f → l.length ≤ g →
      scanUrlsF f l = scanUrlsF g l := by
  intro f
  induction f with
  | zero =>
      intro g l hf hg
      have : l = [] := List.eq_nil_of_length_eq_zero (Nat.le_zero.mp hf)
      subst this
      cases g <;> rfl
  | succ f ih =>
      intro g l hf hg
      cases l with
      | nil => cases g <;> rfl
      | cons c cs =>
          cases g with
          | zero => simp at hg
          | succ g2 =>
              simp only [List.length_cons] at hf hg
              show scanUrlsF (f + 1) (c :: cs) = scanUrlsF (g2 + 1) (c :: cs)
              simp only [scanUrlsF]
              cases h : tryMatch (c :: cs) with
              | some pr =>
                  obtain ⟨cap, rest⟩ := pr
                  have hlt := tryMatch_rest_lt (c :: cs) cap rest h
                  simp only [List.length_cons] at hlt
                  show jsTrim cap :: scanUrlsF f rest = jsTrim cap :: scanUrlsF g2 rest
                  rw [ih g2 rest (by omega) (by omega)]
              | none =>
                  show scanUrlsF f cs = scanUrlsF g2 cs
                  exact ih g2 cs (by omega) (by omega)

/-- The scan of the empty text. -/
theorem extractUrls_nil : extractUrlsFromConfig [] = [] := rfl

/-- One step of the scan: try the pattern at the head position. -/
theorem extractUrls_cons (c : Char) (cs : List Char) :
    extractUrlsFromConfig (c :: cs) =
      match tryMatch (c :: cs) with
      | some (cap, rest) => jsTrim cap :: extractUrlsFromConfig rest
      | none => extractUrlsFromConfig cs := by
  show scanUrlsF (cs.length + 1) (c :: cs) = _
  simp only [scanUrlsF]
  cases h : tryMatch (c :: cs) with
  | some pr =>
      obtain ⟨cap, rest⟩ := pr
      have hlt := tryMatch_rest_lt (c :: cs) cap rest h
      simp only [List.length_cons] at hlt
      show jsTrim cap :: scanUrlsF cs.length rest = _
      rw [scanUrlsF_fuel cs.length rest.length rest (by omega) (le_refl _)]
      rfl
  | none => rfl

/-- A failing head position only advances the scan by one character. -/
theorem extractUrls_cons_of_none (c : Char) (cs : List Char)
    (h : tryMatch (c :: cs) = none) :
    extractUrlsFromConfig (c :: cs) = extractUrlsFromConfig cs := by
  rw [extractUrls_cons, h]

/-- A successful head match emits its trimmed capture and resumes after
the match. -/
theorem extractUrls_cons_of_some (c : Char) (cs cap rest : List Char)
    (h : tryMatch (c :: cs) = some (cap, rest)) :
    extractUrlsFromConfig (c :: cs) = jsTrim cap :: extractUrlsFromConfig rest := by
  rw [extractUrls_cons, h]

/-- The three key letters stand at the head of the text. -/
def startsUrl : List Char → Bool
  | c1 :: c2 :: c3 :: _ => c1 == 'u' && c2 == 'r' && c3 == 'l'
  | _ => false

/-- The three key letters occur consecutively somewhere in the text. -/
def containsUrl : List Char → Bool
  | [] => false
  | c :: cs => startsUrl (c :: cs) || containsUrl cs

/-- The text holds no line terminator. -/
def noTerm (l : List Char) : Bool := l.all fun c => ! isLineTerm c

/-- The equals sign and the value part of a claimed `url = X` line. -/
def parseVal : List Char → Option (List Char)
  | c4 :: v =>
      if c4 = '=' then
        if v.any (fun x => ! isJsSpace x) then some (jsTrim v) else none
      else none
  | [] => none

/-- The key part of a claimed `url = X` line. -/
def parseKey : List Char → Option (List Char)
  | c1 :: c2 :: c3 :: t =>
      if c1 = 'u' ∧ c2 = 'r' ∧ c3 = 'l' then parseVal (t.dropWhile isJsSpace)
      else none
  | _ => none

/-- Modelled from the claim wording for a line of the form `url = X`:
optional whitespace, the key `url`, optional whitespace, `=`, then the
remainder of the line as the value, required to hold a character that is
not whitespace; yields the value trimmed. -/
def parseUrlLine (l : List Char) : Option (List Char) :=
  parseKey (l.dropWhile isJsSpace)

/-- The text of a sequence of lines, each line closed by a newline. -/
def joinLines (lines : List (List Char)) : List Char :=
  (lines.map fun l => l ++ ['\n']).flatten

/-- C9: the pattern is anchored neither to line starts nor to the exact
key `url`: in the single line `pushurl = https://x` the key merely
contains `url` as a substring, yet the extractor captures the value. -/
theorem extractUrls_substring_key :
    extractUrlsFromConfig ("pushurl = https://x".toList) = ["https://x".toList] := by
  rfl

/-- C3 counterexample: the single unrelated line `pushurl = y` holds no
line of the form `url = X` (its key is `pushurl`), yet the extractor
returns one value, so the result does depend on the content of the
unrelated lines. -/
theorem extractUrls_unrelated_counterexample :
    parseUrlLine ("pushurl = y".toList) = none ∧
    extractUrlsFromConfig (joinLines ["pushurl = y".toList]) = ["y".toList] := by
  exact ⟨rfl, rfl⟩

/-- No whitespace character is the letter `u`. -/
theorem space_beq_u (c : Char) (h : isJsSpace c = true) : (c == 'u') = false := by
  simp only [isJsSpace, Bool.or_eq_true, beq_iff_eq] at h
  rcases h with ((((h | h) | h) | h) | h) | h <;> subst h <;> rfl

/-- A head character other than `u` rules the match out. -/
theorem startsUrl_false_of_head (c : Char) (l : List Char)
    (h : (c == 'u') = false) : startsUrl (c :: l) = false := by
  cases l with
  | nil => rfl
  | cons c2 t =>
      cases t with
      | nil => rfl
      | cons c3 t2 => simp [startsUrl, h]

/-- Where the key cannot start, the whole pattern cannot match. -/
theorem tryMatch_eq_none_of_startsUrl_false (l : List Char)
    (h : startsUrl l = false) : tryMatch l = none := by
  cases l with
  | nil => rfl
  | cons c1 l1 =>
  cases l1 with
  | nil => rfl
  | cons c2 l2 =>
  cases l2 with
  | nil => rfl
  | cons c3 t =>
      rw [tryMatch_cons3, if_neg]
      intro hc
      obtain ⟨rfl, rfl, rfl⟩ := hc
      simp [startsUrl] at h

/-- A newline right after the text cannot create a key occurrence that
the text itself lacks. -/
theorem startsUrl_append_nl (l1 rest : List Char) (h : startsUrl l1 = false) :
    startsUrl (l1 ++ '\n' :: rest) = false := by
  match l1 with
  | [] => exact startsUrl_false_of_head '\n' rest rfl
  | [c1] =>
      cases rest with
      | nil => rfl
      | cons c3 t =>
          have hnr : ('\n' == 'r') = false := rfl
          simp [startsUrl, hnr]
  | [c1, c2] =>
      have hnl : ('\n' == 'l') = false := rfl
      simp [startsUrl, hnl]
  | c1 :: c2 :: c3 :: t => exact h

/-- A line without the key letters contributes nothing: the scan walks
through it and its closing newline without matching. -/
theorem extractUrls_skip_line :
    ∀ (line rest : List Char), containsUrl line = false →
      extractUrlsFromConfig (line ++ '\n' :: rest) = extractUrlsFromConfig rest := by
  intro line
  induction line with
  | nil =>
      intro rest _
      rw [List.nil_append]
      exact extractUrls_cons_of_none '\n' rest
        (tryMatch_eq_none_of_startsUrl_false _ (startsUrl_false_of_head '\n' rest rfl))
  | cons c cs ih =>
      intro rest h
      simp only [containsUrl, Bool.or_eq_false_iff] at h
      obtain ⟨h1, h2⟩ := h
      rw [List.cons_append]
      rw [extractUrls_cons_of_none c (cs ++ '\n' :: rest)
        (tryMatch_eq_none_of_startsUrl_false _
          (startsUrl_append_nl (c :: cs) rest h1))]
      exact ih rest h2

/-- When the left part of an append survives `dropWhile`, the right part
is untouched. -/
theorem dropWhile_append_of_ne_nil (p : Char → Bool) :
    ∀ (xs ys : List Char), xs.dropWhile p ≠ [] →
      (xs ++ ys).dropWhile p = xs.dropWhile p ++ ys := by
  intro xs ys
  induction xs with
  | nil => intro h; simp at h
  | cons c cs ih =>
      intro h
      by_cases hc : p c = true
      · rw [List.dropWhile_cons, if_pos hc] at h ⊢
        rw [List.cons_append, List.dropWhile_cons, if_pos hc]
        exact ih h
      · rw [List.dropWhile_cons, if_neg hc]
        rw [List.cons_append, List.dropWhile_cons, if_neg hc]

/-- A character failing the predicate keeps `dropWhile` from emptying
the list. -/
theorem dropWhile_ne_nil_of_any (p : Char → Bool) :
    ∀ l : List Char, l.any (fun x => ! p x) = true → l.dropWhile p ≠ [] := by
  intro l
  induction l with
  | nil => intro h; simp at h
  | cons c cs ih =>
      intro h
      by_cases hc : p c = true
      · rw [List.dropWhile_cons, if_pos hc]
        apply ih
        simp only [List.any_cons, hc, Bool.not_true, Bool.false_or] at h
        exact h
      · rw [List.dropWhile_cons, if_neg hc]
        simp

/-- `takeWhile` over an append stops exactly at the first failing
character of the right part when the whole left part passes. -/
theorem takeWhile_append_stop (q : Char → Bool) :
    ∀ (xs : List Char) (y : Char) (ys : List Char),
      (∀ x ∈ xs, q x = true) → q y = false →
      (xs ++ y :: ys).takeWhile q = xs := by
  intro xs y ys
  induction xs with
  | nil => intro _ hy; simp [List.takeWhile_cons, hy]
  | cons c cs ih =>
      intro hall hy
      have hc : q c = true := hall c (List.mem_cons_self c cs)
      rw [List.cons_append, List.takeWhile_cons, if_pos hc]
      rw [ih (fun x hx => hall x (List.mem_cons_of_mem c hx)) hy]

/-- Membership survives removal of a `dropWhile`. -/
theorem mem_of_mem_dropWhile (p : Char → Bool) :
    ∀ (l : List Char) (x : Char), x ∈ l.dropWhile p → x ∈ l := by
  intro l
  induction l with
  | nil => intro x h; simp at h
  | cons c cs ih =>
      intro x h
      by_cases hc : p c = true
      · rw [List.dropWhile_cons, if_pos hc] at h
        exact List.mem_cons_of_mem c (ih x h)
      · rw [List.dropWhile_cons, if_neg hc] at h
        exact h

/-- Dropping twice is dropping once. -/
theorem dropWhile_dropWhile (p : Char → Bool) :
    ∀ l : List Char, (l.dropWhile p).dropWhile p = l.dropWhile p := by
  intro l
  induction l with
  | nil => rfl
  | cons c cs ih =>
      by_cases hc : p c = true
      · rw [List.dropWhile_cons, if_pos hc]; exact ih
      · rw [List.dropWhile_cons, if_neg hc]
        rw [List.dropWhile_cons, if_neg hc]

/-- Trimming ignores whitespace already dropped on the left. -/
theorem jsTrim_dropWhile (l : List Char) :
    jsTrim (l.dropWhile isJsSpace) = jsTrim l := by
  unfold jsTrim
  rw [dropWhile_dropWhile]

/-- Leading whitespace does not change how a line parses. -/
theorem parseUrlLine_cons_space (c : Char) (cs : List Char)
    (h : isJsSpace c = true) : parseUrlLine (c :: cs) = parseUrlLine cs := by
  simp only [parseUrlLine, List.dropWhile_cons, h, if_true]

/-- Unfolding equation of `afterEq` when non-whitespace input remains. -/
theorem afterEq_of_dropWhile_cons (t2 : List Char) (c : Char) (cs : List Char)
    (h : t2.dropWhile isJsSpace = c :: cs) :
    afterEq t2 = some ((c :: cs).takeWhile (fun x => ! isLineTerm x),
      (c :: cs).drop ((c :: cs).takeWhile (fun x => ! isLineTerm x)).length) := by
  unfold afterEq
  rw [h]

/-- Full computation of the match on a line `url` + whitespace + `=` +
value followed by a newline and arbitrary further text: the capture is
the value without its leading whitespace, and the scan resumes at the
newline. -/
theorem tryMatch_url_line (t rest v : List Char)
    (hd : t.dropWhile isJsSpace = '=' :: v)
    (hv : v.any (fun x => ! isJsSpace x) = true)
    (hnt : ∀ x ∈ t, isLineTerm x = false) :
    tryMatch (('u' :: 'r' :: 'l' :: t) ++ '\n' :: rest) =
      some (v.dropWhile isJsSpace, '\n' :: rest) := by
  have ht : t.dropWhile isJsSpace ≠ [] := by rw [hd]; simp
  have hv2 : v.dropWhile isJsSpace ≠ [] := dropWhile_ne_nil_of_any isJsSpace v hv
  obtain ⟨d, ds, hds⟩ : ∃ d ds, v.dropWhile isJsSpace = d :: ds := by
    cases hvv : v.dropWhile isJsSpace with
    | nil => exact absurd hvv hv2
    | cons d ds => exact ⟨d, ds, rfl⟩
  have hall : ∀ x ∈ d :: ds, (! isLineTerm x) = true := by
    intro x hx
    have hxv : x ∈ v.dropWhile isJsSpace := by rw [hds]; exact hx
    have hx2 : x ∈ v := mem_of_mem_dropWhile _ v x hxv
    have hx3 : x ∈ t.dropWhile isJsSpace := by rw [hd]; exact List.mem_cons_of_mem _ hx2
    have hx4 : x ∈ t := mem_of_mem_dropWhile _ t x hx3
    simp [hnt x hx4]
  have hstep1 : (t ++ '\n' :: rest).dropWhile isJsSpace = '=' :: (v ++ '\n' :: rest) := by
    rw [dropWhile_append_of_ne_nil isJsSpace t ('\n' :: rest) ht, hd, List.cons_append]
  have hstep2 : (v ++ '\n' :: rest).dropWhile isJsSpace = d :: (ds ++ '\n' :: rest) := by
    rw [dropWhile_append_of_ne_nil isJsSpace v ('\n' :: rest) hv2, hds, List.cons_append]
  have hcap : (d :: (ds ++ '\n' :: rest)).takeWhile (fun x => ! isLineTerm x) = d :: ds := by
    have hstop := takeWhile_append_stop (fun x => ! isLineTerm x) (d :: ds) '\n' rest hall rfl
    simpa [List.cons_append] using hstop
  have hdrop : (d :: (ds ++ '\n' :: rest)).drop (d :: ds).length = '\n' :: rest := by
    have hdl := List.drop_left (d :: ds) ('\n' :: rest)
    simp [List.cons_append] at hdl
    simp [hdl]
  show tryMatch ('u' :: 'r' :: 'l' :: (t ++ '\n' :: rest)) = _
  rw [tryMatch_cons3, if_pos ⟨rfl, rfl, rfl⟩, hstep1]
  rw [show eqStep ('=' :: (v ++ '\n' :: rest)) = afterEq (v ++ '\n' :: rest) from by
    simp [eqStep]]
  rw [afterEq_of_dropWhile_cons (v ++ '\n' :: rest) d (ds ++ '\n' :: rest) hstep2]
  rw [hcap, hdrop, hds]

/-- A line parsing as `url = X` contributes exactly its trimmed value,
and the scan resumes after the closing newline. -/
theorem extractUrls_url_line :
    ∀ (line rest v : List Char), parseUrlLine line = some v → noTerm line = true →
      extractUrlsFromConfig (line ++ '\n' :: rest) = v :: extractUrlsFromConfig rest := by
  intro line
  induction line with
  | nil => intro rest v h _; exact absurd h (by simp [parseUrlLine, parseKey])
  | cons c cs ih =>
      intro rest v h hnt
      have hnt2 : noTerm cs = true := by
        simp only [noTerm, List.all_cons, Bool.and_eq_true] at hnt
        exact hnt.2
      by_cases hc : isJsSpace c = true
      · rw [parseUrlLine_cons_space c cs hc] at h
        rw [List.cons_append,
          extractUrls_cons_of_none c (cs ++ '\n' :: rest)
            (tryMatch_eq_none_of_startsUrl_false _
              (startsUrl_false_of_head c _ (space_beq_u c hc)))]
        exact ih rest v h hnt2
      · have hdw : (c :: cs).dropWhile isJsSpace = c :: cs := by
          rw [List.dropWhile_cons, if_neg hc]
        rw [show parseUrlLine (c :: cs) = parseKey ((c :: cs).dropWhile isJsSpace)
          from rfl, hdw] at h
        cases cs with
        | nil => exact absurd h (by simp [parseKey])
        | cons c2 l2 =>
        cases l2 with
        | nil => exact absurd h (by simp [parseKey])
        | cons c3 t =>
            rw [show parseKey (c :: c2 :: c3 :: t) =
              if c = 'u' ∧ c2 = 'r' ∧ c3 = 'l' then parseVal (t.dropWhile isJsSpace)
              else none from rfl] at h
            by_cases hurl : c = 'u' ∧ c2 = 'r' ∧ c3 = 'l'
            · rw [if_pos hurl] at h
              obtain ⟨rfl, rfl, rfl⟩ := hurl
              cases hdd : t.dropWhile isJsSpace with
              | nil => rw [hdd] at h; exact absurd h (by simp [parseVal])
              | cons c4 v0 =>
                  rw [hdd, show parseVal (c4 :: v0) =
                    if c4 = '=' then
                      if v0.any (fun x => ! isJsSpace x) then some (jsTrim v0)
                      else none
                    else none from rfl] at h
                  by_cases h4 : c4 = '='
                  · rw [if_pos h4] at h
                    subst h4
                    by_cases hany : v0.any (fun x => ! isJsSpace x) = true
                    · rw [if_pos hany] at h
                      obtain rfl : jsTrim v0 = v := by simpa using h
                      have hterm : ∀ x ∈ t, isLineTerm x = false := by
                        intro x hx
                        simp only [noTerm, List.all_eq_true] at hnt
                        have hmem : x ∈ 'u' :: 'r' :: 'l' :: t :=
                          List.mem_cons_of_mem _ (List.mem_cons_of_mem _
                            (List.mem_cons_of_mem _ hx))
                        simpa using hnt x hmem
                      have hm := tryMatch_url_line t rest v0 hdd hany hterm
                      simp only [List.cons_append] at hm ⊢
                      rw [extractUrls_cons_of_some 'u'
                        ('r' :: 'l' :: (t ++ '\n' :: rest))
                        (v0.dropWhile isJsSpace) ('\n' :: rest) hm]
                      rw [jsTrim_dropWhile]
                      rw [extractUrls_cons_of_none '\n' rest
                        (tryMatch_eq_none_of_startsUrl_false _
                          (startsUrl_false_of_head '\n' rest rfl))]
                    · rw [if_neg hany] at h; exact absurd h (by simp)
                  · rw [if_neg h4] at h; exact absurd h (by simp)
            · rw [if_neg hurl] at h; exact absurd h (by simp)

/-- C3 (amended): for text made of lines each of which either parses as
`url = X` with a non-whitespace value or does not contain the letters
`url` at all, the extractor returns exactly the trimmed values of the
`url = X` lines, in top-to-bottom order, duplicates preserved.  The
restriction on the unrelated lines is forced by the counterexample: a
line whose key merely contains `url` also matches. -/
theorem extractUrls_lines :
    ∀ lines : List (List Char),
      (∀ l ∈ lines, noTerm l = true ∧
        ((parseUrlLine l).isSome ∨ containsUrl l = false)) →
      extractUrlsFromConfig (joinLines lines) = lines.filterMap parseUrlLine := by
  intro lines
  induction lines with
  | nil => intro _; rfl
  | cons l ls ih =>
      intro h
      obtain ⟨hnt, hl⟩ := h l (List.mem_cons_self l ls)
      have hrest := fun x hx => h x (List.mem_cons_of_mem l hx)
      have hjoin : joinLines (l :: ls) = l ++ '\n' :: joinLines ls := by
        simp [joinLines]
      rw [hjoin]
      cases hpar : parseUrlLine l with
      | none =>
          have hnone : containsUrl l = false := by
            rcases hl with hsome | hnone
            · rw [hpar] at hsome; simp at hsome
            · exact hnone
          rw [extractUrls_skip_line l (joinLines ls) hnone, ih hrest]
          simp [List.filterMap_cons, hpar]
      | some v =>
          rw [extractUrls_url_line l (joinLines ls) v hpar hnt, ih hrest]
          simp [List.filterMap_cons, hpar]

/-- The lines of a small configuration text used as witness input. -/
def demoLines : List (List Char) :=
  ["[remote \"origin\"]".toList,
   "  url = https://a.example/repo.git".toList,
   "fetch = nothing".toList,
   "\turl=https://b.example/x".toList]

/-- C3 witness: the amended statement applied to a concrete
configuration whose unrelated lines avoid the key letters. -/
theorem extractUrls_lines_witness :
    extractUrlsFromConfig (joinLines demoLines) = demoLines.filterMap parseUrlLine ∧
    demoLines.filterMap parseUrlLine =
      ["https://a.example/repo.git".toList, "https://b.example/x".toList] :=
  ⟨extractUrls_lines demoLines (by decide), rfl⟩

/-- An opaque commit record of the backend. -/
structure Commit where
  data : String

/-- The log result of the backend; `all` is its commit sequence. -/
structure LogResult where
  all : List Commit

/-- An opaque per-file diff record of the backend. -/
structure DiffFile where
  data : String

/-- The diff summary of the backend; `files` is its per-file sequence. -/
structure DiffSummary where
  files : List DiffFile

/-- The working-tree status of the backend; only the tracking-branch
name matters to the orchestration (`null` is `none`; the remaining
status fields are never inspected by the source). -/
structure GitStatus where
  tracking : Option String

/-- Trim a string the way `String.prototype.trim` does. -/
def jsTrimS (s : String) : String := (jsTrim s.toList).asString

/-- `RepositoryInfo` from the source. -/
structure RepositoryInfo where
  url : String
  mainFolderName : String
  currentBranch : String
  status : GitStatus
  commits : List Commit
  commitDiffs : List DiffFile
  branchDetails : List LogResult
  directoryHierarchy : DirectoryInfo
  configUrls : List (List Char)

/-- The outcomes of the awaited calls that `fetchRepositoryInfo` makes,
one field per call site, each a success value or a thrown error
message. -/
structure RepoEnv where
  rootSearch : Except String (Option (List String))
  listRemote : Except String String
  revparseHead : Except String String
  statusCall : Except String GitStatus
  logCall : Except String LogResult
  diffSummaryCall : Except String DiffSummary
  logRefCall : String → Except String LogResult
  hierarchyBuild : Except String DirectoryInfo
  configRead : Except String (List Char)

/-- The message of the error thrown when no root is found. -/
def noRepoMsg : String :=
  "No Git repository found in the current project hierarchy."

/-- The message reported when the config file cannot be read. -/
def configErrMsg (e : String) : String := "Error reading config file: " ++ e

/-- `fetchRepositoryInfo` from the source, over the outcomes of its
awaited calls: a thrown error, or the snapshot together with the
messages reported through the error-reporting side channel. -/
def fetchRepositoryInfo (env : RepoEnv) :
    Except String (RepositoryInfo × List String) :=
  match env.rootSearch with
  | Except.error e => Except.error e
  | Except.ok none => Except.error noRepoMsg
  | Except.ok (some gitRoot) =>
    let remoteUrl : Option String :=
      match env.listRemote with
      | Except.ok s => some s
      | Except.error _ => none
    let mainFolderName := gitRoot.getLastD ""
    match env.revparseHead with
    | Except.error e => Except.error e
    | Except.ok currentBranch =>
    match env.statusCall with
    | Except.error e => Except.error e
    | Except.ok status =>
    match env.logCall with
    | Except.error e => Except.error e
    | Except.ok commits =>
    match env.diffSummaryCall with
    | Except.error e => Except.error e
    | Except.ok commitDiffs =>
    match (match status.tracking with
           | some t => if t = "" then Except.ok [] else
               (env.logRefCall t).map fun lr => [lr]
           | none => Except.ok []) with
    | Except.error e => Except.error e
    | Except.ok branchDetails =>
    match env.hierarchyBuild with
    | Except.error e => Except.error e
    | Except.ok directoryHierarchy =>
      let cfg : List (List Char) × List String :=
        match env.configRead with
        | Except.ok content => (extractUrlsFromConfig content, [])
        | Except.error e => ([], [configErrMsg e])
      Except.ok
        ({ url := match remoteUrl with
                  | some s => if s = "" then "" else jsTrimS s
                  | none => ""
           mainFolderName
           currentBranch := jsTrimS currentBranch
           status
           commits := commits.all
           commitDiffs := commitDiffs.files
           branchDetails
           directoryHierarchy
           configUrls := cfg.1 }, cfg.2)

/-- The call outcome is a success. -/
def isOkB {α : Type} : Except String α → Bool
  | Except.ok _ => true
  | Except.error _ => false

/-- The root search succeeded and found a root. -/
def rootFound (env : RepoEnv) : Bool :=
  match env.rootSearch with
  | Except.ok (some _) => true
  | _ => false

/-- The tracking-branch log fetch succeeds whenever the status demands
one (vacuously when the status itself failed or reports no tracking
branch). -/
def trackingLogOk (env : RepoEnv) : Bool :=
  match env.statusCall with
  | Except.ok s =>
      match s.tracking with
      | some t => if t = "" then true else isOkB (env.logRefCall t)
      | none => true
  | Except.error _ => true

/-- C4 (amended): the call returns a snapshot exactly when the root
search finds a root and the current-branch, status, commit-log and
diff-summary calls, the tracking-branch log fetch when the status
demands one, and the topology build all succeed; when the root search
reports NotFound the call fails with the NoRepositoryFound error.  The
`Except` result carries no snapshot in any fatal case. -/
theorem fetch_ok_iff (env : RepoEnv) :
    isOkB (fetchRepositoryInfo env) =
      (rootFound env && isOkB env.revparseHead && isOkB env.statusCall &&
        isOkB env.logCall && isOkB env.diffSummaryCall && trackingLogOk env &&
        isOkB env.hierarchyBuild) ∧
    (env.rootSearch = Except.ok none →
      fetchRepositoryInfo env = Except.error noRepoMsg) := by
  obtain ⟨rs, lr, rp, st, lg, df, lrf, hb, cr⟩ := env
  constructor
  · cases rs with
    | error e => rfl
    | ok o =>
      cases o with
      | none => rfl
      | some root =>
        cases rp with
        | error e => rfl
        | ok b =>
        cases st with
        | error e => rfl
        | ok s =>
        obtain ⟨tr⟩ := s
        cases lg with
        | error e => rfl
        | ok l =>
        cases df with
        | error e => rfl
        | ok d =>
        cases tr with
        | none =>
            cases hb with
            | error e => rfl
            | ok h0 => rfl
        | some t =>
            by_cases ht : t = ""
            · subst ht
              cases hb with
              | error e => rfl
              | ok h0 => rfl
            · cases hlr : lrf t with
              | error e =>
                  cases hb with
                  | error e2 =>
                      simp [fetchRepositoryInfo, rootFound, trackingLogOk, isOkB,
                        ht, hlr, Except.map]
                  | ok h0 =>
                      simp [fetchRepositoryInfo, rootFound, trackingLogOk, isOkB,
                        ht, hlr, Except.map]
              | ok lref =>
                  cases hb with
                  | error e2 =>
                      simp [fetchRepositoryInfo, rootFound, trackingLogOk, isOkB,
                        ht, hlr, Except.map]
                  | ok h0 =>
                      simp [fetchRepositoryInfo, rootFound, trackingLogOk, isOkB,
                        ht, hlr, Except.map]
  · intro h
    subst h
    rfl

/-- A call environment where everything succeeds: used as the base of
the concrete scenarios. -/
def envBase : RepoEnv :=
  { rootSearch := Except.ok (some ["repo"])
    listRemote := Except.ok "https://r.example/a.git\n"
    revparseHead := Except.ok "main\n"
    statusCall := Except.ok ⟨none⟩
    logCall := Except.ok ⟨[⟨"c1"⟩]⟩
    diffSummaryCall := Except.ok ⟨[⟨"f1"⟩]⟩
    logRefCall := fun _ => Except.ok ⟨[⟨"c0"⟩]⟩
    hierarchyBuild := Except.ok (DirectoryInfo.mk [] ["repo"] [])
    configRead := Except.ok "url = https://r.example/a.git".toList }

/-- C4 counterexample: the root search and all four listed required
calls and the topology build succeed, yet the call fails, because the
status demands a tracking-branch log and that fetch throws — a fatal
call the claim does not list. -/
theorem fetch_ok_iff_counterexample :
    rootFound { envBase with
      statusCall := Except.ok ⟨some "origin/main"⟩
      logRefCall := fun _ => Except.error "boom" } = true ∧
    isOkB ({ envBase with
      statusCall := Except.ok ⟨some "origin/main"⟩
      logRefCall := fun _ => Except.error "boom" } : RepoEnv).revparseHead = true ∧
    isOkB ({ envBase with
      statusCall := Except.ok ⟨some "origin/main"⟩
      logRefCall := fun _ => Except.error "boom" } : RepoEnv).statusCall = true ∧
    isOkB ({ envBase with
      statusCall := Except.ok ⟨some "origin/main"⟩
      logRefCall := fun _ => Except.error "boom" } : RepoEnv).logCall = true ∧
    isOkB ({ envBase with
      statusCall := Except.ok ⟨some "origin/main"⟩
      logRefCall := fun _ => Except.error "boom" } : RepoEnv).diffSummaryCall = true ∧
    isOkB ({ envBase with
      statusCall := Except.ok ⟨some "origin/main"⟩
      logRefCall := fun _ => Except.error "boom" } : RepoEnv).hierarchyBuild = true ∧
    fetchRepositoryInfo { envBase with
      statusCall := Except.ok ⟨some "origin/main"⟩
      logRefCall := fun _ => Except.error "boom" } = Except.error "boom" := by
  refine ⟨rfl, rfl, rfl, rfl, rfl, rfl, ?_⟩
  simp [fetchRepositoryInfo, envBase, Except.map]

/-- C4 witness: the NotFound part of the statement applied to an
environment whose root search comes back empty. -/
theorem fetch_ok_iff_witness :
    fetchRepositoryInfo { envBase with rootSearch := Except.ok none } =
      Except.error noRepoMsg :=
  (fetch_ok_iff { envBase with rootSearch := Except.ok none }).2 rfl


/-- C5: when every required step succeeds and only the configuration
read fails, the call still succeeds, the snapshot carries an empty
remote-config-URL sequence, and the failure is reported through the
error-reporting side channel instead of being propagated. -/
theorem fetch_config_fail_recoverable (env : RepoEnv) (r : List String)
    (b : String) (s : GitStatus) (l : LogResult) (d : DiffSummary)
    (h0 : DirectoryInfo) (e : String)
    (hr : env.rootSearch = Except.ok (some r))
    (hbr : env.revparseHead = Except.ok b)
    (hst : env.statusCall = Except.ok s)
    (hlg : env.logCall = Except.ok l)
    (hdf : env.diffSummaryCall = Except.ok d)
    (htr : trackingLogOk env = true)
    (hhb : env.hierarchyBuild = Except.ok h0)
    (hcr : env.configRead = Except.error e) :
    ∃ info, fetchRepositoryInfo env = Except.ok (info, [configErrMsg e]) ∧
      info.configUrls = [] := by
  obtain ⟨rs, lrm, rp, st, lg, df, lrf, hb, cr⟩ := env
  dsimp only at hr hbr hst hlg hdf hhb hcr
  subst hr; subst hbr; subst hst; subst hlg; subst hdf; subst hhb; subst hcr
  obtain ⟨tr⟩ := s
  cases tr with
  | none => exact ⟨_, rfl, rfl⟩
  | some t =>
      by_cases ht : t = ""
      · subst ht
        exact ⟨_, rfl, rfl⟩
      · dsimp only [trackingLogOk] at htr
        rw [if_neg ht] at htr
        cases hlr : lrf t with
        | error e2 => rw [hlr] at htr; simp [isOkB] at htr
        | ok lref =>
            simp only [fetchRepositoryInfo]
            rw [if_neg ht, hlr]
            exact ⟨_, rfl, rfl⟩

/-- C5 witness: the statement applied to the base environment with a
failing configuration read. -/
theorem fetch_config_fail_recoverable_witness :
    ∃ info, fetchRepositoryInfo { envBase with configRead := Except.error "EACCES" } =
      Except.ok (info, [configErrMsg "EACCES"]) ∧ info.configUrls = [] :=
  fetch_config_fail_recoverable
    { envBase with configRead := Except.error "EACCES" }
    ["repo"] "main\n" ⟨none⟩ ⟨[⟨"c1"⟩]⟩ ⟨[⟨"f1"⟩]⟩
    (DirectoryInfo.mk [] ["repo"] []) "EACCES"
    rfl rfl rfl rfl rfl rfl rfl rfl

/-- C6: a failing or empty remote-URL query never fails the call; the
snapshot records the empty string as its remote URL and the rest of the
snapshot is produced as usual. -/
theorem fetch_remote_fail_empty_url (env : RepoEnv) (r : List String)
    (b : String) (s : GitStatus) (l : LogResult) (d : DiffSummary)
    (h0 : DirectoryInfo)
    (hr : env.rootSearch = Except.ok (some r))
    (hbr : env.revparseHead = Except.ok b)
    (hst : env.statusCall = Except.ok s)
    (hlg : env.logCall = Except.ok l)
    (hdf : env.diffSummaryCall = Except.ok d)
    (htr : trackingLogOk env = true)
    (hhb : env.hierarchyBuild = Except.ok h0)
    (hrem : (∃ e, env.listRemote = Except.error e) ∨
      env.listRemote = Except.ok "") :
    ∃ info ms, fetchRepositoryInfo env = Except.ok (info, ms) ∧ info.url = "" := by
  obtain ⟨rs, lrm, rp, st, lg, df, lrf, hb, cr⟩ := env
  dsimp only at hr hbr hst hlg hdf hhb hrem
  subst hr; subst hbr; subst hst; subst hlg; subst hdf; subst hhb
  obtain ⟨tr⟩ := s
  rcases hrem with ⟨e, he⟩ | he <;> subst he <;>
    cases tr with
    | none => exact ⟨_, _, rfl, rfl⟩
    | some t =>
        by_cases ht : t = ""
        · subst ht
          exact ⟨_, _, rfl, rfl⟩
        · dsimp only [trackingLogOk] at htr
          rw [if_neg ht] at htr
          cases hlr : lrf t with
          | error e2 => rw [hlr] at htr; simp [isOkB] at htr
          | ok lref =>
              simp only [fetchRepositoryInfo]
              rw [if_neg ht, hlr]
              exact ⟨_, _, rfl, rfl⟩

/-- C6 witness: the statement applied to the base environment with a
failing remote-URL query. -/
theorem fetch_remote_fail_empty_url_witness :
    ∃ info ms, fetchRepositoryInfo { envBase with
        listRemote := Except.error "no remote" } = Except.ok (info, ms) ∧
      info.url = "" :=
  fetch_remote_fail_empty_url
    { envBase with listRemote := Except.error "no remote" }
    ["repo"] "main\n" ⟨none⟩ ⟨[⟨"c1"⟩]⟩ ⟨[⟨"f1"⟩]⟩
    (DirectoryInfo.mk [] ["repo"] [])
    rfl rfl rfl rfl rfl rfl rfl (Or.inl ⟨"no remote", rfl⟩)

/-- C8: with the required calls succeeding, a status without a tracking
branch yields an empty tracking-branch history and no failure, and a
configured tracking branch has its log fetched and included. -/
theorem fetch_tracking_branch (env : RepoEnv) (r : List String)
    (b : String) (tr : Option String) (l : LogResult) (d : DiffSummary)
    (h0 : DirectoryInfo)
    (hr : env.rootSearch = Except.ok (some r))
    (hbr : env.revparseHead = Except.ok b)
    (hst : env.statusCall = Except.ok ⟨tr⟩)
    (hlg : env.logCall = Except.ok l)
    (hdf : env.diffSummaryCall = Except.ok d)
    (hhb : env.hierarchyBuild = Except.ok h0) :
    (tr = none →
      ∃ info ms, fetchRepositoryInfo env = Except.ok (info, ms) ∧
        info.branchDetails = []) ∧
    (∀ t lref, tr = some t → t ≠ "" → env.logRefCall t = Except.ok lref →
      ∃ info ms, fetchRepositoryInfo env = Except.ok (info, ms) ∧
        info.branchDetails = [lref]) := by
  obtain ⟨rs, lrm, rp, st, lg, df, lrf, hb, cr⟩ := env
  dsimp only at hr hbr hst hlg hdf hhb
  subst hr; subst hbr; subst hst; subst hlg; subst hdf; subst hhb
  constructor
  · intro h
    subst h
    exact ⟨_, _, rfl, rfl⟩
  · intro t lref ht hne hlr
    subst ht
    dsimp only at hlr
    simp only [fetchRepositoryInfo]
    rw [if_neg hne, hlr]
    exact ⟨_, _, rfl, rfl⟩

/-- C8 witness: the statement applied to the base environment with a
configured tracking branch whose log fetch succeeds. -/
theorem fetch_tracking_branch_witness :
    ∃ info ms, fetchRepositoryInfo { envBase with
        statusCall := Except.ok ⟨some "origin/main"⟩ } = Except.ok (info, ms) ∧
      info.branchDetails = [⟨[⟨"c0"⟩]⟩] :=
  (fetch_tracking_branch
    { envBase with statusCall := Except.ok ⟨some "origin/main"⟩ }
    ["repo"] "main\n" (some "origin/main") ⟨[⟨"c1"⟩]⟩ ⟨[⟨"f1"⟩]⟩
    (DirectoryInfo.mk [] ["repo"] []) rfl rfl rfl rfl rfl rfl).2
    "origin/main" ⟨[⟨"c0"⟩]⟩ rfl (by decide) rfl
